import Mathlib

/-!
Verification of the checkpoint-retention and balanced-resampling utilities of
`src/utils.py` against their natural-language specification.

The Python code is shallowly embedded:

* Python `str` values become `List Char`; `str.split(sep)` (single-character
  separator), `str.replace`, substring tests (`in`) and `int(...)` are
  reimplemented below with Python's semantics (`int` parsing is modelled for
  optional surrounding whitespace, an optional sign and decimal digits; the
  rarely-used underscore digit grouping of Python's `int` is not modelled —
  no claim touches it).
* The file system is a list of full paths (`FS`).  `os.remove` fails with
  `FileNotFoundError` when the path is absent.  `delete_old_ckpts` takes the
  `os.listdir(save_path)` result as an explicit argument `dirlist`, which
  models the fact that the directory can change between listing and removal;
  for a quiescent directory `dirlist` is exactly the listing of `fs`.
  Exceptions abort execution but removals already performed persist, so the
  embedding returns the final file-system state together with an optional
  error (`FS × Option PyErr`).
* NumPy's global random generator is modelled by a deterministic generator
  (an LCG) threaded through the computation.  `np.random.seed(0)` discards
  the ambient generator state `g` and restarts from the fixed seed, exactly
  as in the source.  `np.random.choice` returns `size` drawn elements
  (distinct positions when `replace=False`, and it rejects an empty
  population or an oversized without-replacement request), and
  `np.random.permutation` shuffles.  The exact MT19937 bit stream is not
  reproduced; every claim depends only on this contract.
-/

set_option maxHeartbeats 1000000

abbrev PyStr : Type := List Char

/-- Python `s.split(c)` for a one-character separator `c`: splits at every
occurrence, keeping empty segments (`''.split(c) = ['']`). -/
def splitOnChar (c : Char) : List Char → List (List Char)
  | [] => [[]]
  | x :: xs =>
    if x = c then [] :: splitOnChar c xs
    else
      match splitOnChar c xs with
      | [] => [[x]]
      | h :: t => (x :: h) :: t

/-- Python `l[-2]`: second element from the end, `IndexError` (`none`) when
the list has fewer than two elements. -/
def pyNeg2 (l : List (List Char)) : Option (List Char) :=
  match l.reverse with
  | _ :: b :: _ => some b
  | _ => none

/-- Worker for `replaceAll`, structurally recursive on a fuel argument so
that it reduces inside the kernel.  Each step consumes at least one character
of `s` (the pattern, when it matches, is non-empty), so fuel `s.length`
never runs out. -/
def replaceAllFuel (pat repl : List Char) : Nat → List Char → List Char
  | 0, s => s
  | _ + 1, [] => []
  | n + 1, x :: xs =>
    if pat ≠ [] ∧ pat.isPrefixOf (x :: xs) then
      repl ++ replaceAllFuel pat repl n ((x :: xs).drop pat.length)
    else
      x :: replaceAllFuel pat repl n xs

/-- Python `s.replace(pat, repl)`: left-to-right, non-overlapping replacement
of every occurrence (for a non-empty pattern, which is the only way it is
used here). -/
def replaceAll (pat repl s : List Char) : List Char :=
  replaceAllFuel pat repl s.length s

/-- Python `pat in s`: contiguous substring test. -/
def containsSub (pat : List Char) : List Char → Bool
  | [] => pat.isEmpty
  | x :: xs => pat.isPrefixOf (x :: xs) || containsSub pat xs

/-- Decimal digit-string parser: `none` unless the string is non-empty and
all digits. -/
def parseDigits (s : List Char) : Option Nat :=
  if s ≠ [] ∧ s.all Char.isDigit then
    some (s.foldl (fun a c => 10 * a + (c.toNat - 48)) 0)
  else none

/-- Python `str.strip()` as used by `int(...)`. -/
def trimWs (s : List Char) : List Char :=
  ((s.dropWhile Char.isWhitespace).reverse.dropWhile Char.isWhitespace).reverse

/-- Python `int(s)` on decimal strings: optional surrounding whitespace,
optional sign, non-empty digit run; `ValueError` is `none`. -/
def pyInt (s : List Char) : Option Int :=
  match trimWs s with
  | [] => none
  | a :: rest =>
    if a = '-' then (parseDigits rest).map (fun n => -(n : Int))
    else if a = '+' then (parseDigits rest).map (fun n => (n : Int))
    else (parseDigits (a :: rest)).map (fun n => (n : Int))

/-- `utils.py` line 26, `checkpoint_epoch`:
`int(name.split('/')[-1].split('.')[-2].split('-')[-1].replace('epoch', ''))`.
`split` never returns an empty list so `[-1]` cannot fail; `[-2]` can raise
`IndexError` and `int` can raise `ValueError`, both modelled as `none`. -/
def checkpoint_epoch (checkpoint_name : PyStr) : Option Int :=
  let seg := (splitOnChar '/' checkpoint_name).getLastD []
  match pyNeg2 (splitOnChar '.' seg) with
  | none => none
  | some core =>
    pyInt (replaceAll "epoch".data [] ((splitOnChar '-' core).getLastD []))

/-- Canonical decimal spelling of a natural number. -/
def natDecimal (n : Nat) : List Char :=
  if n = 0 then ['0']
  else (Nat.digits 10 n).reverse.map (fun d => Char.ofNat (48 + d))

/- ### File system model -/

abbrev FS : Type := List PyStr

inductive PyErr : Type
  | valueError : PyErr
  | fileNotFound : PyErr
  deriving DecidableEq

/-- `os.remove`: deletes the path when present, `FileNotFoundError` (`none`)
otherwise. -/
def osRemove (fs : FS) (p : PyStr) : Option FS :=
  if p ∈ fs then some (fs.erase p) else none

/-- `os.path.join` for the relative one-component case used here. -/
def osPathJoin (a b : PyStr) : PyStr :=
  if b.head? = some '/' then b
  else if a = [] then b
  else if a.getLast? = some '/' then a ++ b
  else a ++ '/' :: b

/-- `utils.py` lines 29–32, `list_checkpoints`: keep the listed names that
contain `.pt`, do not contain `opt-` and contain `model_name`, joined onto
`save_path`.  `dirlist` is the `os.listdir(save_path)` result. -/
def list_checkpoints (dirlist : List PyStr) (save_path model_name : PyStr) : List PyStr :=
  (dirlist.filter (fun i =>
    containsSub ".pt".data i && !containsSub "opt-".data i && containsSub model_name i)).map
    (fun i => osPathJoin save_path i)

/-- `utils.py` line 37: `[checkpoint_epoch(c) for c in checkpoints]` — the
whole list is computed before any deletion, and a parse failure aborts with
the exception and no side effects. -/
def epochsOf : List PyStr → Option (List Int)
  | [] => some []
  | c :: cs =>
    match checkpoint_epoch c with
    | none => none
    | some e => (epochsOf cs).map (fun es => e :: es)

def insertInt (x : Int) : List Int → List Int
  | [] => [x]
  | a :: t => if x ≤ a then x :: a :: t else a :: insertInt x t

/-- `np.sort` on the (raw, possibly duplicated) epoch list. -/
def sortInts (l : List Int) : List Int := l.foldr insertInt []

/-- Python `l[:-k]` for a natural `k`: everything but the last `k` elements,
and the whole of `l[:0] = []` when `k = 0`. -/
def pySliceUpToNeg (k : Nat) (l : List Int) : List Int :=
  if k = 0 then [] else l.take (l.length - k)

/-- `utils.py` line 41: companion optimizer file path,
`p.replace('checkpoint-', 'opt-checkpoint_').replace('.pt', '.tar')`. -/
def companionPath (p : PyStr) : PyStr :=
  replaceAll ".pt".data ".tar".data (replaceAll "checkpoint-".data "opt-checkpoint_".data p)

/-- One of the two deletion comprehensions of `utils.py` lines 38–43: walk the
checkpoint list, re-evaluate `checkpoint_epoch`, and `os.remove (f c)` when the
epoch is in the delete list.  An exception stops the walk immediately; the
removals already performed persist in the returned state. -/
def removePass (dels : List Int) (f : PyStr → PyStr) : FS → List PyStr → FS × Option PyErr
  | fs, [] => (fs, none)
  | fs, c :: rest =>
    match checkpoint_epoch c with
    | none => (fs, some PyErr.valueError)
    | some e =>
      if e ∈ dels then
        match osRemove fs (f c) with
        | some fs1 => removePass dels f fs1 rest
        | none => (fs, some PyErr.fileNotFound)
      else removePass dels f fs rest

/-- `utils.py` lines 34–43, `delete_old_ckpts`: list checkpoints, compute all
epochs (aborting on a parse failure before anything is removed), then delete
the checkpoints whose epoch lies in `np.sort(saved_epochs)[:-num_save]`, then
delete their companion optimizer files. -/
def delete_old_ckpts (dirlist : List PyStr) (fs : FS) (save_path model_name : PyStr)
    (num_save : Nat) : FS × Option PyErr :=
  let checkpoints := list_checkpoints dirlist save_path model_name
  match epochsOf checkpoints with
  | none => (fs, some PyErr.valueError)
  | some saved_epochs =>
    let dels := pySliceUpToNeg num_save (sortInts saved_epochs)
    match removePass dels (fun p => p) fs checkpoints with
    | (fs1, some err) => (fs1, some err)
    | (fs1, none) => removePass dels companionPath fs1 checkpoints

/- ### Balanced resampler model -/

/-- Step function of the deterministic generator standing in for NumPy's
global RNG. -/
def lcgNext (s : Nat) : Nat :=
  (6364136223846793005 * s + 1442695040888963407) % (2 ^ 64)

/-- Draw a number below `n` (for `n > 0`) and the successor state. -/
def randBelow (s n : Nat) : Nat × Nat :=
  let s1 := lcgNext s
  (s1 % n, s1)

/-- `np.random.seed`: the global generator restarts from this state. -/
def npSeed (n : Nat) : Nat := n

/-- Draw `n` elements without replacement: repeatedly pick a remaining
position and remove it. -/
def drawNoRep : Nat → List Nat → Nat → List Nat × Nat
  | s, _, 0 => ([], s)
  | s, pop, Nat.succ n =>
    let js := randBelow s pop.length
    let rest := drawNoRep js.2 (pop.eraseIdx js.1) n
    (pop.getD js.1 0 :: rest.1, rest.2)

/-- Draw `n` elements with replacement. -/
def drawRep : Nat → List Nat → Nat → List Nat × Nat
  | s, _, 0 => ([], s)
  | s, pop, Nat.succ n =>
    let js := randBelow s pop.length
    let rest := drawRep js.2 pop n
    (pop.getD js.1 0 :: rest.1, rest.2)

/-- `np.random.choice(pop, n, replace=False)`: rejects an empty population
and `n` larger than the population. -/
def npChoiceNoRep (s : Nat) (pop : List Nat) (n : Nat) : Option (List Nat × Nat) :=
  if pop.length < n ∨ pop = [] then none else some (drawNoRep s pop n)

/-- `np.random.choice(pop, n, replace=True)`: rejects an empty population. -/
def npChoiceRep (s : Nat) (pop : List Nat) (n : Nat) : Option (List Nat × Nat) :=
  if pop = [] then none else some (drawRep s pop n)

/-- `np.random.permutation`: drawing every element without replacement is a
uniform shuffle. -/
def npPermutation (s : Nat) (l : List Nat) : List Nat :=
  (drawNoRep s l l.length).1

/-- Number of occurrences of the label `l` in `y` (the per-class observed
count of `np.unique(y, return_counts=True)`). -/
def countLabel (y : List Nat) (l : Nat) : Nat :=
  (y.filter (fun v => v == l)).length

/-- `np.where(y == label)[0]`: the positions of `y` holding `label`. -/
def idxsOf (y : List Nat) (l : Nat) : List Nat :=
  (List.range y.length).filter (fun i => y.getD i 0 == l)

def insertNat (x : Nat) : List Nat → List Nat
  | [] => [x]
  | a :: t => if x ≤ a then x :: a :: t else a :: insertNat x t

def sortNats (l : List Nat) : List Nat := l.foldr insertNat []

/-- `np.unique(y)`: sorted distinct values present in `y`. -/
def uniqueSorted (y : List Nat) : List Nat := (sortNats y).dedup

/-- `np.min`: `ValueError` (`none`) on an empty array. -/
def npMin : List Nat → Option Nat
  | [] => none
  | c :: cs => some (cs.foldl Nat.min c)

/-- `utils.py` lines 104–107: `minority = np.min(counts)`, raised to
`max(minority, min_size // len(labels))` when `min_size` is given (`//` is
integer floor division). -/
def balancedQuota (y : List Nat) (min_size : Option Nat) : Option Nat :=
  let labels := uniqueSorted y
  match npMin (labels.map (fun l => countLabel y l)) with
  | none => none
  | some m0 =>
    some (match min_size with
          | none => m0
          | some ms => max m0 (ms / labels.length))

/-- `utils.py` lines 108–114: per-class sampling loop.  Classes whose
observed count reaches the quota are sampled without replacement, the others
with replacement; the draws are concatenated in label order. -/
def sampleLoop (y : List Nat) (minority : Nat) : Nat → List Nat → Option (List Nat × Nat)
  | s, [] => some ([], s)
  | s, label :: rest =>
    let label_idxs := idxsOf y label
    match (if minority ≤ label_idxs.length
           then npChoiceNoRep s label_idxs minority
           else npChoiceRep s label_idxs minority) with
    | none => none
    | some ds =>
      match sampleLoop y minority ds.2 rest with
      | none => none
      | some rs => some (ds.1 ++ rs.1, rs.2)

/-- `utils.py` lines 116–117: `if max_size: idxs = idxs[:max_size]` — Python
truthiness, so `None` and `0` both skip the truncation. -/
def applyMaxSize (max_size : Option Nat) (l : List Nat) : List Nat :=
  match max_size with
  | none => l
  | some m => if m = 0 then l else l.take m

/-- `utils.py` lines 100–117, `balanced_dataset`, up to the final fancy
indexing: the selected index list.  `g` is the ambient global-RNG state; the
function discards it via `np.random.seed(0)`.  (`np.bincount(y)` on line 103
is dead code — its result is immediately overwritten — and is omitted.) -/
def balanced_idxs (g : Nat) (y : List Nat) (max_size min_size : Option Nat) :
    Option (List Nat) :=
  let _ := g
  match balancedQuota y min_size with
  | none => none
  | some minority =>
    match sampleLoop y minority (npSeed 0) (uniqueSorted y) with
    | none => none
    | some outs => some (applyMaxSize max_size (npPermutation outs.2 outs.1))

/-- `utils.py` line 118: `return X[idxs], y[idxs]` — NumPy fancy indexing,
`IndexError` (`none`) on an out-of-range index. -/
def balanced_dataset {α : Type} (g : Nat) (X : List α) (y : List Nat)
    (max_size min_size : Option Nat) : Option (List α × List Nat) :=
  match balanced_idxs g y max_size min_size with
  | none => none
  | some idxs =>
    match idxs.mapM (fun i => X[i]?), idxs.mapM (fun i => y[i]?) with
    | some xs, some ys => some (xs, ys)
    | _, _ => none

/- ### Lemmas: `os.remove` and the deletion loop -/

theorem osRemove_of_mem {fs : FS} {p : PyStr} (h : p ∈ fs) :
    osRemove fs p = some (fs.erase p) := by
  simp [osRemove, h]

theorem osRemove_of_not_mem {fs : FS} {p : PyStr} (h : p ∉ fs) :
    osRemove fs p = none := by
  simp [osRemove, h]

theorem epochsOf_isSome_parse :
    ∀ {cs : List PyStr} {es : List Int}, epochsOf cs = some es →
      ∀ c ∈ cs, (checkpoint_epoch c).isSome := by
  intro cs
  induction cs with
  | nil => intro es _ c hc; simp at hc
  | cons c0 rest ih =>
    intro es h c hc
    unfold epochsOf at h
    cases hp : checkpoint_epoch c0 with
    | none => rw [hp] at h; exact absurd h (by simp)
    | some e =>
      rw [hp] at h
      cases hr : epochsOf rest with
      | none => rw [hr] at h; exact absurd h (by simp)
      | some es' =>
        rcases List.mem_cons.mp hc with rfl | hc'
        · simp [hp]
        · exact ih hr c hc'

theorem epochsOf_eq_none :
    ∀ {cs : List PyStr}, (∃ c ∈ cs, checkpoint_epoch c = none) → epochsOf cs = none := by
  intro cs
  induction cs with
  | nil => intro h; rcases h with ⟨c, hc, _⟩; simp at hc
  | cons c0 rest ih =>
    intro h
    rcases h with ⟨c, hc, hcn⟩
    unfold epochsOf
    rcases List.mem_cons.mp hc with rfl | hc'
    · rw [hcn]
    · cases hp : checkpoint_epoch c0 with
      | none => rfl
      | some e => rw [ih ⟨c, hc', hcn⟩]; rfl

theorem removePass_nil (dels : List Int) (f : PyStr → PyStr) (fs : FS) :
    removePass dels f fs [] = (fs, none) := rfl

theorem removePass_cons_malformed {c : PyStr} (dels : List Int) (f : PyStr → PyStr)
    (fs : FS) (rest : List PyStr) (hp : checkpoint_epoch c = none) :
    removePass dels f fs (c :: rest) = (fs, some PyErr.valueError) := by
  simp [removePass, hp]

theorem removePass_cons_skip {c : PyStr} {e : Int} {dels : List Int} (f : PyStr → PyStr)
    (fs : FS) (rest : List PyStr) (hp : checkpoint_epoch c = some e) (he : e ∉ dels) :
    removePass dels f fs (c :: rest) = removePass dels f fs rest := by
  simp [removePass, hp, he]

theorem removePass_cons_del {c : PyStr} {e : Int} {dels : List Int} {f : PyStr → PyStr}
    {fs : FS} (rest : List PyStr) (hp : checkpoint_epoch c = some e) (he : e ∈ dels)
    (hm : f c ∈ fs) :
    removePass dels f fs (c :: rest) = removePass dels f (fs.erase (f c)) rest := by
  simp [removePass, hp, he, osRemove_of_mem hm]

theorem removePass_cons_gone {c : PyStr} {e : Int} {dels : List Int} {f : PyStr → PyStr}
    {fs : FS} (rest : List PyStr) (hp : checkpoint_epoch c = some e) (he : e ∈ dels)
    (hm : f c ∉ fs) :
    removePass dels f fs (c :: rest) = (fs, some PyErr.fileNotFound) := by
  simp [removePass, hp, he, osRemove_of_not_mem hm]

theorem removePass_fst_subset (dels : List Int) (f : PyStr → PyStr) :
    ∀ (cs : List PyStr) (fs : FS) (p : PyStr),
      p ∈ (removePass dels f fs cs).1 → p ∈ fs := by
  intro cs
  induction cs with
  | nil => intro fs p h; simpa [removePass_nil] using h
  | cons c rest ih =>
    intro fs p h
    cases hp : checkpoint_epoch c with
    | none => rw [removePass_cons_malformed dels f fs rest hp] at h; exact h
    | some e =>
      by_cases he : e ∈ dels
      · by_cases hm : f c ∈ fs
        · rw [removePass_cons_del rest hp he hm] at h
          exact List.erase_subset _ _ (ih _ p h)
        · rw [removePass_cons_gone rest hp he hm] at h
          exact h
      · rw [removePass_cons_skip f fs rest hp he] at h
        exact ih fs p h

/-- First deletion pass over checkpoints that are present and pairwise
distinct: it never raises, and it removes exactly the checkpoints whose epoch
lies in the delete list. -/
theorem removePass_id_spec (dels : List Int) :
    ∀ (cs : List PyStr) (fs : FS), fs.Nodup → cs.Nodup →
      (∀ c ∈ cs, c ∈ fs) → (∀ c ∈ cs, (checkpoint_epoch c).isSome) →
      ∃ fs1, removePass dels (fun p => p) fs cs = (fs1, none) ∧ fs1.Nodup ∧
        ∀ p, p ∈ fs1 ↔
          p ∈ fs ∧ ¬(p ∈ cs ∧ ∃ e, checkpoint_epoch p = some e ∧ e ∈ dels) := by
  intro cs
  induction cs with
  | nil =>
    intro fs hfs _ _ _
    exact ⟨fs, removePass_nil dels _ fs, hfs, by simp⟩
  | cons c rest ih =>
    intro fs hfs hnd hsub hparse
    obtain ⟨e, hpe⟩ := Option.isSome_iff_exists.mp (hparse c (by simp))
    have hcfs : c ∈ fs := hsub c (by simp)
    have hndr : rest.Nodup := (List.nodup_cons.mp hnd).2
    have hcnr : c ∉ rest := (List.nodup_cons.mp hnd).1
    by_cases he : e ∈ dels
    · have hstep : removePass dels (fun p => p) fs (c :: rest) =
          removePass dels (fun p => p) (fs.erase c) rest :=
        removePass_cons_del rest hpe he hcfs
      have hsub' : ∀ c' ∈ rest, c' ∈ fs.erase c := by
        intro c' hc'
        have hne : c' ≠ c := fun hcc => hcnr (hcc ▸ hc')
        exact (List.mem_erase_of_ne hne).mpr (hsub c' (by simp [hc']))
      obtain ⟨fs1, heq, hnd1, hiff⟩ :=
        ih (fs.erase c) (hfs.erase c) hndr hsub' (fun c' hc' => hparse c' (by simp [hc']))
      refine ⟨fs1, hstep.trans heq, hnd1, ?_⟩
      intro p
      rw [hiff p]
      by_cases hpc : p = c
      · subst hpc
        constructor
        · intro h
          exact absurd h.1 (by simp [List.Nodup.mem_erase_iff hfs])
        · intro h
          exact absurd ⟨by simp, e, hpe, he⟩ h.2
      · rw [List.mem_erase_of_ne hpc]
        constructor
        · rintro ⟨h1, h2⟩
          exact ⟨h1, fun hx => h2 ⟨(List.mem_cons.mp hx.1).resolve_left hpc, hx.2⟩⟩
        · rintro ⟨h1, h2⟩
          exact ⟨h1, fun hx => h2 ⟨List.mem_cons_of_mem _ hx.1, hx.2⟩⟩
    · have hstep : removePass dels (fun p => p) fs (c :: rest) =
          removePass dels (fun p => p) fs rest :=
        removePass_cons_skip _ fs rest hpe he
      obtain ⟨fs1, heq, hnd1, hiff⟩ :=
        ih fs hfs hndr (fun c' hc' => hsub c' (by simp [hc']))
          (fun c' hc' => hparse c' (by simp [hc']))
      refine ⟨fs1, hstep.trans heq, hnd1, ?_⟩
      intro p
      rw [hiff p]
      by_cases hpc : p = c
      · subst hpc
        constructor
        · rintro ⟨h1, h2⟩
          refine ⟨h1, ?_⟩
          rintro ⟨_, e', hpe', he'⟩
          rw [hpe] at hpe'
          exact he (Option.some.inj hpe' ▸ he')
        · rintro ⟨h1, h2⟩
          refine ⟨h1, ?_⟩
          rintro ⟨hmem, e', hpe', he'⟩
          exact h2 ⟨List.mem_cons_of_mem _ hmem, e', hpe', he'⟩
      · constructor
        · rintro ⟨h1, h2⟩
          exact ⟨h1, fun hx => h2 ⟨(List.mem_cons.mp hx.1).resolve_left hpc, hx.2⟩⟩
        · rintro ⟨h1, h2⟩
          exact ⟨h1, fun hx => h2 ⟨List.mem_cons_of_mem _ hx.1, hx.2⟩⟩

/-- Anything that disappears during a deletion pass is the `f`-image of one of
the walked checkpoints. -/
theorem removePass_removed_is_image (dels : List Int) (f : PyStr → PyStr) :
    ∀ (cs : List PyStr) (fs : FS) (p : PyStr),
      p ∈ fs → p ∉ (removePass dels f fs cs).1 → ∃ c ∈ cs, p = f c := by
  intro cs
  induction cs with
  | nil => intro fs p hp hnp; exact absurd (by simpa [removePass_nil] using hp) hnp
  | cons c rest ih =>
    intro fs p hp hnp
    cases hpe : checkpoint_epoch c with
    | none =>
      rw [removePass_cons_malformed dels f fs rest hpe] at hnp
      exact absurd hp hnp
    | some e =>
      by_cases he : e ∈ dels
      · by_cases hm : f c ∈ fs
        · rw [removePass_cons_del rest hpe he hm] at hnp
          by_cases hpc : p = f c
          · exact ⟨c, by simp, hpc⟩
          · obtain ⟨c', hc', hpc'⟩ :=
              ih (fs.erase (f c)) p ((List.mem_erase_of_ne hpc).mpr hp) hnp
            exact ⟨c', by simp [hc'], hpc'⟩
        · rw [removePass_cons_gone rest hpe he hm] at hnp
          exact absurd hp hnp
      · rw [removePass_cons_skip f fs rest hpe he] at hnp
        obtain ⟨c', hc', hpc'⟩ := ih fs p hp hnp
        exact ⟨c', by simp [hc'], hpc'⟩

/-- If some checkpoint in the delete list has its `f`-image absent, the pass
raises `FileNotFoundError`. -/
theorem removePass_fileNotFound (dels : List Int) (f : PyStr → PyStr) :
    ∀ (cs : List PyStr) (fs : FS),
      (∀ c ∈ cs, (checkpoint_epoch c).isSome) →
      (∃ c ∈ cs, (∃ e, checkpoint_epoch c = some e ∧ e ∈ dels) ∧ f c ∉ fs) →
      (removePass dels f fs cs).2 = some PyErr.fileNotFound := by
  intro cs
  induction cs with
  | nil => intro fs _ h; rcases h with ⟨c, hc, _⟩; simp at hc
  | cons c0 rest ih =>
    intro fs hparse h
    rcases h with ⟨c, hc, ⟨e, hpe, he⟩, hmiss⟩
    obtain ⟨e0, hpe0⟩ := Option.isSome_iff_exists.mp (hparse c0 (by simp))
    rcases List.mem_cons.mp hc with rfl | hc'
    · rw [hpe0] at hpe
      have he0 : e0 ∈ dels := Option.some.inj hpe ▸ he
      rw [removePass_cons_gone rest hpe0 he0 hmiss]
    · by_cases he0 : e0 ∈ dels
      · by_cases hm : f c0 ∈ fs
        · rw [removePass_cons_del rest hpe0 he0 hm]
          refine ih (fs.erase (f c0)) (fun c' hc'' => hparse c' (by simp [hc''])) ?_
          refine ⟨c, hc', ⟨e, hpe, he⟩, ?_⟩
          intro hmem
          exact hmiss (List.erase_subset _ _ hmem)
        · rw [removePass_cons_gone rest hpe0 he0 hm]
      · rw [removePass_cons_skip f fs rest hpe0 he0]
        exact ih fs (fun c' hc'' => hparse c' (by simp [hc''])) ⟨c, hc', ⟨e, hpe, he⟩, hmiss⟩

/-- `delete_old_ckpts` on a directory whose listed checkpoints are present and
pairwise distinct: the checkpoint pass succeeds, removing exactly the
delete-list checkpoints, and the call continues into the companion pass from
that intermediate state. -/
theorem delete_old_ckpts_decompose (dirlist : List PyStr) (fs : FS) (sp mn : PyStr)
    (k : Nat) (es : List Int)
    (hfs : fs.Nodup)
    (hcs : (list_checkpoints dirlist sp mn).Nodup)
    (hsub : ∀ c ∈ list_checkpoints dirlist sp mn, c ∈ fs)
    (hes : epochsOf (list_checkpoints dirlist sp mn) = some es) :
    ∃ fs1,
      delete_old_ckpts dirlist fs sp mn k =
        removePass (pySliceUpToNeg k (sortInts es)) companionPath fs1
          (list_checkpoints dirlist sp mn) ∧
      fs1.Nodup ∧
      ∀ p, p ∈ fs1 ↔
        p ∈ fs ∧ ¬(p ∈ list_checkpoints dirlist sp mn ∧
          ∃ e, checkpoint_epoch p = some e ∧ e ∈ pySliceUpToNeg k (sortInts es)) := by
  obtain ⟨fs1, heq, hnd1, hiff⟩ :=
    removePass_id_spec (pySliceUpToNeg k (sortInts es)) (list_checkpoints dirlist sp mn)
      fs hfs hcs hsub (epochsOf_isSome_parse hes)
  refine ⟨fs1, ?_, hnd1, hiff⟩
  simp only [delete_old_ckpts, hes, heq]

/-- Splitting a deletion pass at any point: the walk continues from the
intermediate state if no exception occurred, and otherwise stops there. -/
theorem removePass_append (dels : List Int) (f : PyStr → PyStr) :
    ∀ (cs1 cs2 : List PyStr) (fs : FS),
      removePass dels f fs (cs1 ++ cs2) =
        match removePass dels f fs cs1 with
        | (fs1, none) => removePass dels f fs1 cs2
        | (fs1, some err) => (fs1, some err) := by
  intro cs1
  induction cs1 with
  | nil => intro cs2 fs; simp [removePass_nil]
  | cons c cs1' ih =>
    intro cs2 fs
    cases hpe : checkpoint_epoch c with
    | none =>
      rw [List.cons_append, removePass_cons_malformed dels f fs (cs1' ++ cs2) hpe,
        removePass_cons_malformed dels f fs cs1' hpe]
    | some e =>
      by_cases he : e ∈ dels
      · by_cases hm : f c ∈ fs
        · rw [List.cons_append, removePass_cons_del (cs1' ++ cs2) hpe he hm,
            removePass_cons_del cs1' hpe he hm]
          exact ih cs2 (fs.erase (f c))
        · rw [List.cons_append, removePass_cons_gone (cs1' ++ cs2) hpe he hm,
            removePass_cons_gone cs1' hpe he hm]
      · rw [List.cons_append, removePass_cons_skip f fs (cs1' ++ cs2) hpe he,
          removePass_cons_skip f fs cs1' hpe he]
        exact ih cs2 fs

/-- C1 counterexample.  Checkpoints at epochs 1–4 with `num_save = 3` and no
companion optimizer files on disk: the epoch-1 checkpoint is in the delete
set and its companion does not exist, and the prune call raises
`FileNotFoundError` instead of silently ignoring the missing companion. -/
theorem claim_C1_counterexample :
    delete_old_ckpts
      ["checkpoint-epoch-1.pt".data, "checkpoint-epoch-2.pt".data,
       "checkpoint-epoch-3.pt".data, "checkpoint-epoch-4.pt".data]
      ["d/checkpoint-epoch-1.pt".data, "d/checkpoint-epoch-2.pt".data,
       "d/checkpoint-epoch-3.pt".data, "d/checkpoint-epoch-4.pt".data]
      "d".data [] 3 =
    (["d/checkpoint-epoch-2.pt".data, "d/checkpoint-epoch-3.pt".data,
      "d/checkpoint-epoch-4.pt".data], some PyErr.fileNotFound) := by
  decide

/-- C1 (amended): when a checkpoint's epoch is in the delete set and its
companion optimizer file does not exist, `delete_old_ckpts` raises
`FileNotFoundError` — the missing companion is *not* silently ignored — but
the checkpoint file itself has nevertheless been deleted, because every
checkpoint deletion precedes every companion deletion. -/
theorem claim_C1_theorem (dirlist : List PyStr) (fs : FS) (sp mn : PyStr) (k : Nat)
    (es : List Int) (c : PyStr) (e : Int)
    (hfs : fs.Nodup) (hcs : (list_checkpoints dirlist sp mn).Nodup)
    (hsub : ∀ c' ∈ list_checkpoints dirlist sp mn, c' ∈ fs)
    (hes : epochsOf (list_checkpoints dirlist sp mn) = some es)
    (hc : c ∈ list_checkpoints dirlist sp mn)
    (hpe : checkpoint_epoch c = some e)
    (he : e ∈ pySliceUpToNeg k (sortInts es))
    (hmiss : companionPath c ∉ fs) :
    (delete_old_ckpts dirlist fs sp mn k).2 = some PyErr.fileNotFound ∧
    c ∉ (delete_old_ckpts dirlist fs sp mn k).1 := by
  obtain ⟨fs1, heq, _, hiff⟩ :=
    delete_old_ckpts_decompose dirlist fs sp mn k es hfs hcs hsub hes
  rw [heq]
  constructor
  · apply removePass_fileNotFound _ _ _ _ (epochsOf_isSome_parse hes)
    refine ⟨c, hc, ⟨e, hpe, he⟩, fun hmem => hmiss ?_⟩
    exact ((hiff _).mp hmem).1
  · intro hmem
    have h1 : c ∈ fs1 := removePass_fst_subset _ _ _ _ _ hmem
    exact ((hiff c).mp h1).2 ⟨hc, e, hpe, he⟩

/-- C1 witness: the concrete epoch 1–4 directory with no companions. -/
theorem claim_C1_witness :
    (delete_old_ckpts
      ["checkpoint-epoch-1.pt".data, "checkpoint-epoch-2.pt".data,
       "checkpoint-epoch-3.pt".data, "checkpoint-epoch-4.pt".data]
      ["d/checkpoint-epoch-1.pt".data, "d/checkpoint-epoch-2.pt".data,
       "d/checkpoint-epoch-3.pt".data, "d/checkpoint-epoch-4.pt".data]
      "d".data [] 3).2 = some PyErr.fileNotFound ∧
    "d/checkpoint-epoch-1.pt".data ∉
      (delete_old_ckpts
        ["checkpoint-epoch-1.pt".data, "checkpoint-epoch-2.pt".data,
         "checkpoint-epoch-3.pt".data, "checkpoint-epoch-4.pt".data]
        ["d/checkpoint-epoch-1.pt".data, "d/checkpoint-epoch-2.pt".data,
         "d/checkpoint-epoch-3.pt".data, "d/checkpoint-epoch-4.pt".data]
        "d".data [] 3).1 :=
  claim_C1_theorem _ _ _ _ 3 [1, 2, 3, 4] _ 1 (by decide) (by decide) (by decide)
    (by decide) (by decide) (by decide) (by decide) (by decide)

/-- C2 counterexample.  Checkpoints at epochs 1, 2, 2, 3 with `num_save = 3`:
the distinct epoch values are `{1,2,3}`, so deleting "all but the 3 largest
distinct epochs" would delete nothing; the code nevertheless deletes the
epoch-1 checkpoint, because the delete set is a slice of the *raw* sorted
epoch list `[1,2,2,3][:-3] = [1]`. -/
theorem claim_C2_counterexample :
    "d/a-epoch-1.pt".data ∈
      ["d/a-epoch-1.pt".data, "d/b-epoch-2.pt".data, "d/c-epoch-2.pt".data,
       "d/e-epoch-3.pt".data, "d/a-epoch-1.tar".data] ∧
    "d/a-epoch-1.pt".data ∉
      (delete_old_ckpts
        ["a-epoch-1.pt".data, "b-epoch-2.pt".data, "c-epoch-2.pt".data,
         "e-epoch-3.pt".data, "a-epoch-1.tar".data]
        ["d/a-epoch-1.pt".data, "d/b-epoch-2.pt".data, "d/c-epoch-2.pt".data,
         "d/e-epoch-3.pt".data, "d/a-epoch-1.tar".data]
        "d".data [] 3).1 := by
  decide

/-- C2 (amended): for a directory of parseable, pairwise-distinct, present
checkpoints (with companion paths distinct from checkpoint paths),
`delete_old_ckpts` deletes exactly the checkpoints whose epoch occurs in
`np.sort(saved_epochs)[:-num_save]` — the slice of the *raw* sorted epoch
list, with multiplicity, not of the distinct epoch values.  On directories
with pairwise-distinct epochs (such as epochs `{1,2,3,4,5}` with `keep = 3`)
this coincides with keeping the `keep` largest epochs. -/
theorem claim_C2_theorem (dirlist : List PyStr) (fs : FS) (sp mn : PyStr) (k : Nat)
    (es : List Int) (c : PyStr) (e : Int)
    (hfs : fs.Nodup) (hcs : (list_checkpoints dirlist sp mn).Nodup)
    (hsub : ∀ c' ∈ list_checkpoints dirlist sp mn, c' ∈ fs)
    (hes : epochsOf (list_checkpoints dirlist sp mn) = some es)
    (hdisj : ∀ c' ∈ list_checkpoints dirlist sp mn,
      ∀ c'' ∈ list_checkpoints dirlist sp mn, companionPath c'' ≠ c')
    (hc : c ∈ list_checkpoints dirlist sp mn)
    (hpe : checkpoint_epoch c = some e) :
    c ∉ (delete_old_ckpts dirlist fs sp mn k).1 ↔
      e ∈ pySliceUpToNeg k (sortInts es) := by
  obtain ⟨fs1, heq, _, hiff⟩ :=
    delete_old_ckpts_decompose dirlist fs sp mn k es hfs hcs hsub hes
  rw [heq]
  constructor
  · intro hnot
    by_contra hne
    have hc1 : c ∈ fs1 := by
      refine (hiff c).mpr ⟨hsub c hc, ?_⟩
      rintro ⟨_, e', hpe', he'⟩
      rw [hpe] at hpe'
      exact hne (Option.some.inj hpe' ▸ he')
    obtain ⟨c', hc', hcc⟩ := removePass_removed_is_image _ companionPath _ fs1 c hc1 hnot
    exact hdisj c hc c' hc' hcc.symm
  · intro he hmem
    have h1 : c ∈ fs1 := removePass_fst_subset _ _ _ _ _ hmem
    exact ((hiff c).mp h1).2 ⟨hc, e, hpe, he⟩

/-- C2 witness: checkpoints at epochs `{1,2,3,4,5}` with companions on disk
and `keep = 3` — the epoch-1 checkpoint is deleted. -/
theorem claim_C2_witness :
    "d/checkpoint-epoch-1.pt".data ∉
      (delete_old_ckpts
        ["checkpoint-epoch-1.pt".data, "checkpoint-epoch-2.pt".data,
         "checkpoint-epoch-3.pt".data, "checkpoint-epoch-4.pt".data,
         "checkpoint-epoch-5.pt".data]
        ["d/checkpoint-epoch-1.pt".data, "d/checkpoint-epoch-2.pt".data,
         "d/checkpoint-epoch-3.pt".data, "d/checkpoint-epoch-4.pt".data,
         "d/checkpoint-epoch-5.pt".data, "d/opt-checkpoint_epoch-1.tar".data,
         "d/opt-checkpoint_epoch-2.tar".data]
        "d".data [] 3).1 :=
  (claim_C2_theorem _ _ _ _ 3 [1, 2, 3, 4, 5] _ 1 (by decide) (by decide) (by decide)
    (by decide) (by decide) (by decide) (by decide)).mpr (by decide)

/-- C4 counterexample.  The listing returns checkpoints at epochs 1–5
(`keep = 3`, delete set `{1,2}`), but the epoch-1 file was removed between
listing and deletion.  The claim says the failure is reported per item and
the loop continues best-effort; in fact the first `os.remove` failure raises
`FileNotFoundError` and aborts the whole call, leaving the epoch-2
checkpoint — also in the delete set — untouched. -/
theorem claim_C4_counterexample :
    (delete_old_ckpts
      ["a-epoch-1.pt".data, "b-epoch-2.pt".data, "c-epoch-3.pt".data,
       "e-epoch-4.pt".data, "f-epoch-5.pt".data]
      ["d/b-epoch-2.pt".data, "d/c-epoch-3.pt".data, "d/e-epoch-4.pt".data,
       "d/f-epoch-5.pt".data]
      "d".data [] 3).2 = some PyErr.fileNotFound ∧
    checkpoint_epoch "d/b-epoch-2.pt".data = some 2 ∧
    (2 : Int) ∈ pySliceUpToNeg 3 (sortInts [1, 2, 3, 4, 5]) ∧
    "d/b-epoch-2.pt".data ∈
      (delete_old_ckpts
        ["a-epoch-1.pt".data, "b-epoch-2.pt".data, "c-epoch-3.pt".data,
         "e-epoch-4.pt".data, "f-epoch-5.pt".data]
        ["d/b-epoch-2.pt".data, "d/c-epoch-3.pt".data, "d/e-epoch-4.pt".data,
         "d/f-epoch-5.pt".data]
        "d".data [] 3).1 := by
  decide

/-- C4 (amended): when a deletion fails (the file named by the listing is
gone by deletion time), the comprehension raises `FileNotFoundError` at that
element and stops: removals performed on the earlier checkpoints persist
(state `fs1`), and the remaining checkpoints after the failing one are not
processed at all — the loop is aborted, not best-effort. -/
theorem claim_C4_theorem (dels : List Int) (f : PyStr → PyStr) (fs fs1 : FS)
    (cs1 cs2 : List PyStr) (m : PyStr) (em : Int)
    (h1 : removePass dels f fs cs1 = (fs1, none))
    (hpe : checkpoint_epoch m = some em)
    (he : em ∈ dels)
    (hmiss : f m ∉ fs1) :
    removePass dels f fs (cs1 ++ m :: cs2) = (fs1, some PyErr.fileNotFound) := by
  rw [removePass_append, h1]
  exact removePass_cons_gone cs2 hpe he hmiss

/-- C4 witness: after skipping the epoch-3 checkpoint (not in the delete
set), the missing epoch-1 checkpoint aborts the pass with the state intact
and the rest of the list unprocessed. -/
theorem claim_C4_witness :
    removePass [1, 2] (fun p => p)
      ["d/b-epoch-2.pt".data, "d/c-epoch-3.pt".data]
      (["d/c-epoch-3.pt".data] ++ "d/a-epoch-1.pt".data :: ["d/b-epoch-2.pt".data]) =
    (["d/b-epoch-2.pt".data, "d/c-epoch-3.pt".data], some PyErr.fileNotFound) :=
  claim_C4_theorem [1, 2] (fun p => p) _ _ _ _ _ 1 (by decide) (by decide)
    (by decide) (by decide)

/-- C9: if any listed checkpoint filename fails to parse, `delete_old_ckpts`
raises before performing any deletion — the file system is returned
unchanged together with the parse error. -/
theorem claim_C9_theorem (dirlist : List PyStr) (fs : FS) (sp mn : PyStr) (k : Nat)
    (h : ∃ c ∈ list_checkpoints dirlist sp mn, checkpoint_epoch c = none) :
    delete_old_ckpts dirlist fs sp mn k = (fs, some PyErr.valueError) := by
  simp only [delete_old_ckpts, epochsOf_eq_none h]

/-- C9 witness: a directory containing the unparseable `model.pt` next to
well-formed checkpoints — nothing is deleted. -/
theorem claim_C9_witness :
    delete_old_ckpts
      ["model.pt".data, "checkpoint-epoch-1.pt".data, "checkpoint-epoch-2.pt".data,
       "checkpoint-epoch-3.pt".data, "checkpoint-epoch-4.pt".data]
      ["d/model.pt".data, "d/checkpoint-epoch-1.pt".data, "d/checkpoint-epoch-2.pt".data,
       "d/checkpoint-epoch-3.pt".data, "d/checkpoint-epoch-4.pt".data]
      "d".data [] 3 =
    (["d/model.pt".data, "d/checkpoint-epoch-1.pt".data, "d/checkpoint-epoch-2.pt".data,
      "d/checkpoint-epoch-3.pt".data, "d/checkpoint-epoch-4.pt".data],
     some PyErr.valueError) :=
  claim_C9_theorem _ _ _ _ 3 (by decide)

/- ### Lemmas: labels, counts and index sets -/

theorem mem_insertNat : ∀ (l : List Nat) (a x : Nat), x ∈ insertNat a l ↔ x = a ∨ x ∈ l := by
  intro l
  induction l with
  | nil => intro a x; simp [insertNat]
  | cons b t ih =>
    intro a x
    unfold insertNat
    by_cases h : a ≤ b <;> simp [h, ih] <;> tauto

theorem mem_sortNats : ∀ (l : List Nat) (x : Nat), x ∈ sortNats l ↔ x ∈ l := by
  intro l
  induction l with
  | nil => intro x; simp [sortNats]
  | cons a t ih =>
    intro x
    show x ∈ insertNat a (sortNats t) ↔ _
    rw [mem_insertNat, ih]
    simp

theorem mem_uniqueSorted {y : List Nat} {x : Nat} : x ∈ uniqueSorted y ↔ x ∈ y := by
  rw [uniqueSorted, List.mem_dedup, mem_sortNats]

theorem nodup_uniqueSorted (y : List Nat) : (uniqueSorted y).Nodup :=
  List.nodup_dedup _

theorem uniqueSorted_ne_nil {y : List Nat} (hy : y ≠ []) : uniqueSorted y ≠ [] := by
  obtain ⟨a, ha⟩ := List.exists_mem_of_ne_nil y hy
  exact List.ne_nil_of_mem (mem_uniqueSorted.mpr ha)

theorem mem_idxsOf {y : List Nat} {l i : Nat} :
    i ∈ idxsOf y l ↔ i < y.length ∧ y.getD i 0 = l := by
  simp [idxsOf, List.mem_filter, List.mem_range]

theorem idxsOf_nodup (y : List Nat) (l : Nat) : (idxsOf y l).Nodup :=
  (List.nodup_range _).filter _

theorem idxsOf_length : ∀ (y : List Nat) (l : Nat), (idxsOf y l).length = countLabel y l := by
  intro y
  induction y with
  | nil => intro l; rfl
  | cons a t ih =>
    intro l
    have hpred : ((fun i => (a :: t).getD i 0 == l) ∘ Nat.succ) =
        (fun i => t.getD i 0 == l) := by
      funext i
      rfl
    have key : (List.map Nat.succ ((List.range t.length).filter
        (fun i => t.getD i 0 == l))).length = (t.filter (fun v => v == l)).length := by
      rw [List.length_map]
      exact ih l
    show ((List.range (t.length + 1)).filter (fun i => (a :: t).getD i 0 == l)).length
      = ((a :: t).filter (fun v => v == l)).length
    rw [List.range_succ_eq_map, List.filter_cons, List.filter_map, hpred, List.filter_cons]
    simp only [List.getD_cons_zero]
    by_cases hal : (a == l) = true
    · rw [if_pos hal, if_pos hal]
      simp only [List.length_cons, key]
    · rw [if_neg hal, if_neg hal]
      exact key

theorem countLabel_pos {y : List Nat} {l : Nat} (h : l ∈ y) : 0 < countLabel y l := by
  have : l ∈ y.filter (fun v => v == l) := List.mem_filter.mpr ⟨h, by simp⟩
  exact List.length_pos.mpr (List.ne_nil_of_mem this)

theorem idxsOf_ne_nil {y : List Nat} {l : Nat} (h : l ∈ y) : idxsOf y l ≠ [] := by
  intro hnil
  have h1 := idxsOf_length y l
  rw [hnil] at h1
  simp at h1
  exact absurd (countLabel_pos h) (by omega)

/- ### Lemmas: `np.min` and the quota -/

theorem foldl_min_le : ∀ (cs : List Nat) (c : Nat),
    cs.foldl Nat.min c ≤ c ∧ ∀ x ∈ cs, cs.foldl Nat.min c ≤ x := by
  intro cs
  induction cs with
  | nil => intro c; exact ⟨le_refl c, by simp⟩
  | cons a t ih =>
    intro c
    have h := ih (Nat.min c a)
    refine ⟨le_trans h.1 (Nat.min_le_left _ _), ?_⟩
    intro x hx
    rcases List.mem_cons.mp hx with rfl | hx'
    · exact le_trans h.1 (Nat.min_le_right _ _)
    · exact h.2 x hx'

theorem foldl_min_mem : ∀ (cs : List Nat) (c : Nat),
    cs.foldl Nat.min c = c ∨ cs.foldl Nat.min c ∈ cs := by
  intro cs
  induction cs with
  | nil => intro c; exact Or.inl rfl
  | cons a t ih =>
    intro c
    rcases ih (Nat.min c a) with h | h
    · rw [List.foldl_cons, h]
      rcases Nat.le_total c a with hca | hca
      · exact Or.inl (Nat.min_eq_left hca)
      · exact Or.inr (by simp [Nat.min_eq_right hca])
    · exact Or.inr (List.mem_cons_of_mem _ (by rw [List.foldl_cons]; exact h))

theorem npMin_le {l : List Nat} {m : Nat} (h : npMin l = some m) : ∀ x ∈ l, m ≤ x := by
  cases l with
  | nil => simp [npMin] at h
  | cons c cs =>
    have hm : m = cs.foldl Nat.min c := (Option.some.inj h).symm
    intro x hx
    rcases List.mem_cons.mp hx with rfl | hx'
    · exact hm ▸ (foldl_min_le cs x).1
    · exact hm ▸ (foldl_min_le cs c).2 x hx'

theorem npMin_mem {l : List Nat} {m : Nat} (h : npMin l = some m) : m ∈ l := by
  cases l with
  | nil => simp [npMin] at h
  | cons c cs =>
    have hm : cs.foldl Nat.min c = m := Option.some.inj h
    rcases foldl_min_mem cs c with h' | h'
    · rw [← hm, h']
      exact List.mem_cons_self c cs
    · rw [← hm]
      exact List.mem_cons_of_mem _ h'

theorem balancedQuota_none_spec (y : List Nat) (hy : y ≠ []) :
    ∃ m0, balancedQuota y none = some m0 ∧
      (∀ l ∈ uniqueSorted y, m0 ≤ countLabel y l) ∧
      (∃ l ∈ uniqueSorted y, countLabel y l = m0) := by
  cases hm : npMin ((uniqueSorted y).map (fun l => countLabel y l)) with
  | none =>
    exfalso
    have := uniqueSorted_ne_nil hy
    cases hu : uniqueSorted y with
    | nil => exact this hu
    | cons a t => rw [hu] at hm; simp [npMin] at hm
  | some m0 =>
    refine ⟨m0, by simp [balancedQuota, hm], ?_, ?_⟩
    · intro l hl
      exact npMin_le hm _ (List.mem_map_of_mem _ hl)
    · obtain ⟨l, hl, hcl⟩ := List.mem_map.mp (npMin_mem hm)
      exact ⟨l, hl, hcl⟩

/- ### Lemmas: random draws -/

theorem perm_getD_eraseIdx : ∀ (l : List Nat) (j : Nat), j < l.length →
    l.Perm (l.getD j 0 :: l.eraseIdx j) := by
  intro l
  induction l with
  | nil => intro j hj; simp at hj
  | cons a t ih =>
    intro j hj
    cases j with
    | zero => simp [List.eraseIdx]
    | succ j' =>
      have hj' : j' < t.length := by simpa using hj
      simp only [List.getD_cons_succ, List.eraseIdx_cons_succ]
      exact ((ih j' hj').cons a).trans (List.Perm.swap _ _ _)

theorem drawNoRep_length : ∀ (n s : Nat) (pop : List Nat),
    (drawNoRep s pop n).1.length = n := by
  intro n
  induction n with
  | zero => intro s pop; rfl
  | succ n ih =>
    intro s pop
    simp only [drawNoRep, List.length_cons, ih]

theorem drawNoRep_mem : ∀ (n s : Nat) (pop : List Nat), n ≤ pop.length →
    ∀ x ∈ (drawNoRep s pop n).1, x ∈ pop := by
  intro n
  induction n with
  | zero => intro s pop _ x hx; simp [drawNoRep] at hx
  | succ n ih =>
    intro s pop hlen x hx
    have hpos : 0 < pop.length := by omega
    have hj : (randBelow s pop.length).1 < pop.length := Nat.mod_lt _ hpos
    have hperm := perm_getD_eraseIdx pop _ hj
    simp only [drawNoRep, List.mem_cons] at hx
    rcases hx with rfl | hx'
    · exact hperm.mem_iff.mpr (List.mem_cons_self _ _)
    · have hlen' : n ≤ (pop.eraseIdx (randBelow s pop.length).1).length := by
        rw [List.length_eraseIdx_of_lt hj]
        omega
      have := ih _ _ hlen' x hx'
      exact hperm.mem_iff.mpr (List.mem_cons_of_mem _ this)

theorem drawNoRep_nodup : ∀ (n s : Nat) (pop : List Nat), n ≤ pop.length →
    pop.Nodup → (drawNoRep s pop n).1.Nodup := by
  intro n
  induction n with
  | zero => intro s pop _ _; simp [drawNoRep]
  | succ n ih =>
    intro s pop hlen hnd
    have hpos : 0 < pop.length := by omega
    have hj : (randBelow s pop.length).1 < pop.length := Nat.mod_lt _ hpos
    have hperm := perm_getD_eraseIdx pop _ hj
    have hcons : (pop.getD (randBelow s pop.length).1 0 ::
        pop.eraseIdx (randBelow s pop.length).1).Nodup := hperm.nodup_iff.mp hnd
    have hlen' : n ≤ (pop.eraseIdx (randBelow s pop.length).1).length := by
      rw [List.length_eraseIdx_of_lt hj]
      omega
    simp only [drawNoRep, List.nodup_cons]
    constructor
    · intro hmem
      have hin : pop.getD (randBelow s pop.length).1 0 ∈
          pop.eraseIdx (randBelow s pop.length).1 :=
        drawNoRep_mem n _ _ hlen' _ hmem
      exact (List.nodup_cons.mp hcons).1 hin
    · exact ih _ _ hlen' (List.nodup_cons.mp hcons).2

theorem drawNoRep_perm : ∀ (n s : Nat) (pop : List Nat), n = pop.length →
    pop.Perm (drawNoRep s pop n).1 := by
  intro n
  induction n with
  | zero =>
    intro s pop h
    have : pop = [] := List.length_eq_zero.mp h.symm
    simp [this, drawNoRep]
  | succ n ih =>
    intro s pop h
    have hpos : 0 < pop.length := by omega
    have hj : (randBelow s pop.length).1 < pop.length := Nat.mod_lt _ hpos
    have hperm := perm_getD_eraseIdx pop _ hj
    have hlen' : n = (pop.eraseIdx (randBelow s pop.length).1).length := by
      rw [List.length_eraseIdx_of_lt hj]
      omega
    simp only [drawNoRep]
    exact hperm.trans ((ih _ _ hlen').cons _)

theorem drawRep_length : ∀ (n s : Nat) (pop : List Nat),
    (drawRep s pop n).1.length = n := by
  intro n
  induction n with
  | zero => intro s pop; rfl
  | succ n ih =>
    intro s pop
    simp only [drawRep, List.length_cons, ih]

theorem drawRep_mem : ∀ (n s : Nat) (pop : List Nat), pop ≠ [] →
    ∀ x ∈ (drawRep s pop n).1, x ∈ pop := by
  intro n
  induction n with
  | zero => intro s pop _ x hx; simp [drawRep] at hx
  | succ n ih =>
    intro s pop hne x hx
    have hpos : 0 < pop.length := List.length_pos.mpr hne
    have hj : (randBelow s pop.length).1 < pop.length := Nat.mod_lt _ hpos
    simp only [drawRep, List.mem_cons] at hx
    rcases hx with rfl | hx'
    · rw [List.getD_eq_getElem _ _ hj]
      exact List.getElem_mem _
    · exact ih _ _ hne x hx'

theorem npChoiceNoRep_eq {s n : Nat} {pop : List Nat} (h1 : n ≤ pop.length)
    (h2 : pop ≠ []) : npChoiceNoRep s pop n = some (drawNoRep s pop n) := by
  simp [npChoiceNoRep, Nat.not_lt.mpr h1, h2]

theorem npChoiceRep_eq {s n : Nat} {pop : List Nat} (h2 : pop ≠ []) :
    npChoiceRep s pop n = some (drawRep s pop n) := by
  simp [npChoiceRep, h2]

/-- The per-class sampling loop on distinct labels, all present in `y`: it
succeeds, draws exactly `minority` indices per class (each from its own
class), and — when every class can be sampled without replacement — returns
pairwise-distinct indices. -/
theorem sampleLoop_spec (y : List Nat) (q : Nat) :
    ∀ (ls : List Nat) (s : Nat), ls.Nodup →
      (∀ l ∈ ls, idxsOf y l ≠ []) →
      ∃ out s2, sampleLoop y q s ls = some (out, s2) ∧
        out.length = ls.length * q ∧
        (∀ i ∈ out, ∃ l ∈ ls, i ∈ idxsOf y l) ∧
        (∀ l, out.countP (fun i => y.getD i 0 == l) = if l ∈ ls then q else 0) ∧
        ((∀ l ∈ ls, q ≤ (idxsOf y l).length) → out.Nodup) := by
  intro ls
  induction ls with
  | nil =>
    intro s _ _
    exact ⟨[], s, rfl, by simp, by simp, by simp, by simp⟩
  | cons l0 rest ih =>
    intro s hnd hne
    have hpop : idxsOf y l0 ≠ [] := hne l0 (List.mem_cons_self _ _)
    have hl0nr : l0 ∉ rest := (List.nodup_cons.mp hnd).1
    by_cases hq : q ≤ (idxsOf y l0).length
    · have hchoice : (if q ≤ (idxsOf y l0).length then npChoiceNoRep s (idxsOf y l0) q
          else npChoiceRep s (idxsOf y l0) q) = some (drawNoRep s (idxsOf y l0) q) := by
        rw [if_pos hq, npChoiceNoRep_eq hq hpop]
      obtain ⟨out', s2, hs', hlen', hmem', hcount', hnd'⟩ :=
        ih (drawNoRep s (idxsOf y l0) q).2 (List.nodup_cons.mp hnd).2
          (fun l hl => hne l (List.mem_cons_of_mem _ hl))
      refine ⟨(drawNoRep s (idxsOf y l0) q).1 ++ out', s2, ?_, ?_, ?_, ?_, ?_⟩
      · simp only [sampleLoop, hchoice, hs']
      · rw [List.length_append, drawNoRep_length, hlen']
        simp only [List.length_cons]
        ring
      · intro i hi
        rcases List.mem_append.mp hi with hi' | hi'
        · exact ⟨l0, List.mem_cons_self _ _, drawNoRep_mem q s _ hq i hi'⟩
        · obtain ⟨l, hl, hil⟩ := hmem' i hi'
          exact ⟨l, List.mem_cons_of_mem _ hl, hil⟩
      · intro l
        rw [List.countP_append, hcount' l]
        by_cases hll : l = l0
        · subst hll
          have hall : ∀ i ∈ (drawNoRep s (idxsOf y l) q).1, (y.getD i 0 == l) = true := by
            intro i hi
            have h2 := (mem_idxsOf.mp (drawNoRep_mem q s _ hq i hi)).2
            rw [h2]
            exact beq_self_eq_true l
          rw [List.countP_eq_length.mpr hall, drawNoRep_length]
          simp [hl0nr]
        · have hnone : ∀ i ∈ (drawNoRep s (idxsOf y l0) q).1,
              ¬((y.getD i 0 == l) = true) := by
            intro i hi hbeq
            have h2 := (mem_idxsOf.mp (drawNoRep_mem q s _ hq i hi)).2
            rw [h2] at hbeq
            exact hll ((by simpa using hbeq) : l0 = l).symm
          rw [List.countP_eq_zero.mpr hnone]
          by_cases hlr : l ∈ rest
          · simp [hlr, hll]
          · simp [hlr, hll]
      · intro hall
        refine List.nodup_append.mpr ⟨?_, ?_, ?_⟩
        · exact drawNoRep_nodup q s _ hq (idxsOf_nodup y l0)
        · exact hnd' (fun l hl => hall l (List.mem_cons_of_mem _ hl))
        · intro i hi hio
          obtain ⟨l, hl, hil⟩ := hmem' i hio
          have h1 := (mem_idxsOf.mp (drawNoRep_mem q s _ hq i hi)).2
          have h2 := (mem_idxsOf.mp hil).2
          rw [h1] at h2
          rw [← h2] at hl
          exact hl0nr hl
    · have hchoice : (if q ≤ (idxsOf y l0).length then npChoiceNoRep s (idxsOf y l0) q
          else npChoiceRep s (idxsOf y l0) q) = some (drawRep s (idxsOf y l0) q) := by
        rw [if_neg hq, npChoiceRep_eq hpop]
      obtain ⟨out', s2, hs', hlen', hmem', hcount', hnd'⟩ :=
        ih (drawRep s (idxsOf y l0) q).2 (List.nodup_cons.mp hnd).2
          (fun l hl => hne l (List.mem_cons_of_mem _ hl))
      refine ⟨(drawRep s (idxsOf y l0) q).1 ++ out', s2, ?_, ?_, ?_, ?_, ?_⟩
      · simp only [sampleLoop, hchoice, hs']
      · rw [List.length_append, drawRep_length, hlen']
        simp only [List.length_cons]
        ring
      · intro i hi
        rcases List.mem_append.mp hi with hi' | hi'
        · exact ⟨l0, List.mem_cons_self _ _, drawRep_mem q s _ hpop i hi'⟩
        · obtain ⟨l, hl, hil⟩ := hmem' i hi'
          exact ⟨l, List.mem_cons_of_mem _ hl, hil⟩
      · intro l
        rw [List.countP_append, hcount' l]
        by_cases hll : l = l0
        · subst hll
          have hall : ∀ i ∈ (drawRep s (idxsOf y l) q).1, (y.getD i 0 == l) = true := by
            intro i hi
            have h2 := (mem_idxsOf.mp (drawRep_mem q s _ hpop i hi)).2
            rw [h2]
            exact beq_self_eq_true l
          rw [List.countP_eq_length.mpr hall, drawRep_length]
          simp [hl0nr]
        · have hnone : ∀ i ∈ (drawRep s (idxsOf y l0) q).1,
              ¬((y.getD i 0 == l) = true) := by
            intro i hi hbeq
            have h2 := (mem_idxsOf.mp (drawRep_mem q s _ hpop i hi)).2
            rw [h2] at hbeq
            exact hll ((by simpa using hbeq) : l0 = l).symm
          rw [List.countP_eq_zero.mpr hnone]
          by_cases hlr : l ∈ rest
          · simp [hlr, hll]
          · simp [hlr, hll]
      · intro hall
        exact absurd (hall l0 (List.mem_cons_self _ _)) hq

theorem applyMaxSize_length_le (ms : Option Nat) (l : List Nat) :
    (applyMaxSize ms l).length ≤ l.length := by
  cases ms with
  | none => exact le_refl _
  | some m =>
    by_cases hm : m = 0
    · simp [applyMaxSize, hm]
    · simp only [applyMaxSize, if_neg hm]
      exact (List.take_sublist m l).length_le

theorem applyMaxSize_some_length_le (m : Nat) (hm : m ≠ 0) (l : List Nat) :
    (applyMaxSize (some m) l).length ≤ m := by
  simp only [applyMaxSize, if_neg hm]
  rw [List.length_take]
  exact min_le_left _ _

theorem applyMaxSize_nodup {l : List Nat} (ms : Option Nat) (h : l.Nodup) :
    (applyMaxSize ms l).Nodup := by
  cases ms with
  | none => exact h
  | some m =>
    by_cases hm : m = 0
    · simpa [applyMaxSize, hm] using h
    · simp only [applyMaxSize, if_neg hm]
      exact (List.take_sublist m l).nodup h

/-- C3 counterexample.  `y = [0,0,1,1]` yields a balanced selection of
length 4; with `maxSize = 0` the claim demands exactly 0 entries, but the
code's `if max_size:` treats `0` as falsy and skips the truncation, so all 4
entries are returned. -/
theorem claim_C3_counterexample :
    (balanced_idxs 0 [0, 0, 1, 1] (some 0) none).map List.length = some 4 := by
  decide

/-- C3 (amended): when `maxSize` is given and nonzero (truthy), the returned
selection is exactly the first `maxSize` entries of the permuted balanced
index list; `maxSize = 0` is falsy and behaves like an absent `maxSize` (no
truncation). -/
theorem claim_C3_theorem (g : Nat) (y : List Nat) (mns : Option Nat) (m : Nat)
    (hm : m ≠ 0) :
    balanced_idxs g y (some m) mns =
      (balanced_idxs g y none mns).map (fun l => List.take m l) := by
  cases hq : balancedQuota y mns with
  | none => simp [balanced_idxs, hq]
  | some q =>
    cases hs : sampleLoop y q (npSeed 0) (uniqueSorted y) with
    | none => simp [balanced_idxs, hq, hs]
    | some outs => simp [balanced_idxs, hq, hs, applyMaxSize, hm]

/-- C3 witness: `y = [0,0,1,1]` with `maxSize = 2`. -/
theorem claim_C3_witness :
    balanced_idxs 0 [0, 0, 1, 1] (some 2) none =
      (balanced_idxs 0 [0, 0, 1, 1] none none).map (fun l => List.take 2 l) :=
  claim_C3_theorem 0 [0, 0, 1, 1] none 2 (by decide)

/-- C5: `balanced_dataset` is deterministic — the ambient global generator
state is discarded by `np.random.seed(0)`, so two calls with identical
features, labels, `maxSize` and `minSize` return identical index selections
(same multiset and same order) and identical re-indexed outputs. -/
theorem claim_C5_theorem (α : Type) (g1 g2 : Nat) (X : List α) (y : List Nat)
    (max_size min_size : Option Nat) :
    balanced_idxs g1 y max_size min_size = balanced_idxs g2 y max_size min_size ∧
    balanced_dataset g1 X y max_size min_size = balanced_dataset g2 X y max_size min_size :=
  ⟨rfl, rfl⟩

/-- C6 counterexample.  `y = [5,5,7]` yields a balanced selection of length
2; with `maxSize = 0` given, the claimed cap `length ≤ maxSize` fails: the
code's `if max_size:` treats `0` as falsy and returns both entries. -/
theorem claim_C6_counterexample :
    (balanced_idxs 0 [5, 5, 7] (some 0) none).map List.length = some 2 := by
  decide

/-- C6 (amended): for non-empty labels the call succeeds; with no `maxSize`
truncation each distinct class label appears exactly `quota` times in the
selected index list; the returned length is at most
`numberOfClasses * quota`, and is further capped by `maxSize` when `maxSize`
is given and nonzero (a zero `maxSize` is falsy and performs no
truncation). -/
theorem claim_C6_theorem (g : Nat) (y : List Nat) (ms mns : Option Nat) (q : Nat)
    (hy : y ≠ []) (hq : balancedQuota y mns = some q) :
    ∃ idxs, balanced_idxs g y ms mns = some idxs ∧
      (ms = none → ∀ l ∈ uniqueSorted y,
        idxs.countP (fun i => y.getD i 0 == l) = q) ∧
      idxs.length ≤ (uniqueSorted y).length * q ∧
      (∀ m, ms = some m → m ≠ 0 → idxs.length ≤ m) := by
  obtain ⟨out, s2, hs, hlen, hmem, hcount, hnd⟩ :=
    sampleLoop_spec y q (uniqueSorted y) (npSeed 0) (nodup_uniqueSorted y)
      (fun l hl => idxsOf_ne_nil (mem_uniqueSorted.mp hl))
  have hperm : out.Perm (npPermutation s2 out) := drawNoRep_perm _ _ _ rfl
  refine ⟨applyMaxSize ms (npPermutation s2 out), by simp [balanced_idxs, hq, hs],
    ?_, ?_, ?_⟩
  · rintro rfl l hl
    show (npPermutation s2 out).countP _ = q
    rw [← hperm.countP_eq, hcount l, if_pos hl]
  · have hlenperm : (npPermutation s2 out).length = (uniqueSorted y).length * q := by
      rw [← hperm.length_eq, hlen]
    have h1 := applyMaxSize_length_le ms (npPermutation s2 out)
    rw [hlenperm] at h1
    exact h1
  · intro m hms hm
    subst hms
    exact applyMaxSize_some_length_le m hm _

/-- C6 witness: `y = [0,0,1,1]` (quota 2) with no `maxSize`. -/
theorem claim_C6_witness :
    ∃ idxs, balanced_idxs 0 [0, 0, 1, 1] none none = some idxs ∧
      ((none : Option Nat) = none → ∀ l ∈ uniqueSorted [0, 0, 1, 1],
        idxs.countP (fun i => [0, 0, 1, 1].getD i 0 == l) = 2) ∧
      idxs.length ≤ (uniqueSorted [0, 0, 1, 1]).length * 2 ∧
      (∀ m, (none : Option Nat) = some m → m ≠ 0 → idxs.length ≤ m) :=
  claim_C6_theorem 0 [0, 0, 1, 1] none none 2 (by decide) (by decide)

/-- C7: for non-empty labels, the quota is `min(observedCounts)` when
`minSize` is absent (a lower bound on every class count, attained by some
class), and `max(min(observedCounts), minSize // numberOfClasses)` when
`minSize` is given, where `//` is integer floor division — witnessed by the
characteristic inequalities `qq * n ≤ minSize < (qq + 1) * n`. -/
theorem claim_C7_theorem (y : List Nat) (hy : y ≠ []) :
    ∃ m0, balancedQuota y none = some m0 ∧
      (∀ l ∈ uniqueSorted y, m0 ≤ countLabel y l) ∧
      (∃ l ∈ uniqueSorted y, countLabel y l = m0) ∧
      ∀ ms : Nat, ∃ qq, balancedQuota y (some ms) = some (max m0 qq) ∧
        qq * (uniqueSorted y).length ≤ ms ∧
        ms < (qq + 1) * (uniqueSorted y).length := by
  obtain ⟨m0, hq0, hlb, hmem⟩ := balancedQuota_none_spec y hy
  have hlenpos : 0 < (uniqueSorted y).length :=
    List.length_pos.mpr (uniqueSorted_ne_nil hy)
  refine ⟨m0, hq0, hlb, hmem, ?_⟩
  intro ms
  refine ⟨ms / (uniqueSorted y).length, ?_, ?_, ?_⟩
  · cases hm : npMin ((uniqueSorted y).map (fun l => countLabel y l)) with
    | none => simp [balancedQuota, hm] at hq0
    | some m0' =>
      have hm0 : m0' = m0 := by simpa [balancedQuota, hm] using hq0
      simp [balancedQuota, hm, hm0]
  · exact Nat.div_mul_le_self ms _
  · calc ms = (uniqueSorted y).length * (ms / (uniqueSorted y).length) +
        ms % (uniqueSorted y).length := (Nat.div_add_mod _ _).symm
      _ < (uniqueSorted y).length * (ms / (uniqueSorted y).length) +
        (uniqueSorted y).length := Nat.add_lt_add_left (Nat.mod_lt _ hlenpos) _
      _ = (ms / (uniqueSorted y).length + 1) * (uniqueSorted y).length := by ring

/-- C7 witness: `y = [0,1,1]`, whose class counts are 1 and 2. -/
theorem claim_C7_witness :
    ∃ m0, balancedQuota [0, 1, 1] none = some m0 ∧
      (∀ l ∈ uniqueSorted [0, 1, 1], m0 ≤ countLabel [0, 1, 1] l) ∧
      (∃ l ∈ uniqueSorted [0, 1, 1], countLabel [0, 1, 1] l = m0) ∧
      ∀ ms : Nat, ∃ qq, balancedQuota [0, 1, 1] (some ms) = some (max m0 qq) ∧
        qq * (uniqueSorted [0, 1, 1]).length ≤ ms ∧
        ms < (qq + 1) * (uniqueSorted [0, 1, 1]).length :=
  claim_C7_theorem [0, 1, 1] (by decide)

/-- C10: with `minSize` absent the quota is the minimum observed class
count, so every class meets the without-replacement branch's guard
(`quota ≤ observed count` for every class) and the whole selection is free
of duplicate indices — in particular no index repeats within any class. -/
theorem claim_C10_theorem (g : Nat) (y : List Nat) (ms : Option Nat) (hy : y ≠ []) :
    ∃ idxs, balanced_idxs g y ms none = some idxs ∧ idxs.Nodup ∧
      ∀ l ∈ uniqueSorted y, ∃ q, balancedQuota y none = some q ∧
        q ≤ (idxsOf y l).length := by
  obtain ⟨m0, hq0, hlb, _⟩ := balancedQuota_none_spec y hy
  obtain ⟨out, s2, hs, hlen, hmem, hcount, hnd⟩ :=
    sampleLoop_spec y m0 (uniqueSorted y) (npSeed 0) (nodup_uniqueSorted y)
      (fun l hl => idxsOf_ne_nil (mem_uniqueSorted.mp hl))
  have hall : ∀ l ∈ uniqueSorted y, m0 ≤ (idxsOf y l).length := by
    intro l hl
    rw [idxsOf_length]
    exact hlb l hl
  have hperm : out.Perm (npPermutation s2 out) := drawNoRep_perm _ _ _ rfl
  refine ⟨applyMaxSize ms (npPermutation s2 out), by simp [balanced_idxs, hq0, hs],
    ?_, ?_⟩
  · exact applyMaxSize_nodup ms (hperm.nodup_iff.mp (hnd hall))
  · intro l hl
    exact ⟨m0, hq0, hall l hl⟩

/-- C10 witness: `y = [0,0,1,1,1]` under an arbitrary ambient generator
state. -/
theorem claim_C10_witness :
    ∃ idxs, balanced_idxs 7 [0, 0, 1, 1, 1] none none = some idxs ∧ idxs.Nodup ∧
      ∀ l ∈ uniqueSorted [0, 0, 1, 1, 1], ∃ q, balancedQuota [0, 0, 1, 1, 1] none = some q ∧
        q ≤ (idxsOf [0, 0, 1, 1, 1] l).length :=
  claim_C10_theorem 7 [0, 0, 1, 1, 1] none (by decide)

/- ### Lemmas: string splitting -/

theorem splitOnChar_cons_self (c : Char) (u : List Char) :
    splitOnChar c (c :: u) = [] :: splitOnChar c u := by
  simp [splitOnChar]

theorem splitOnChar_cons_ne {c x : Char} (hx : x ≠ c) {u h : List Char}
    {tl : List (List Char)} (hsp : splitOnChar c u = h :: tl) :
    splitOnChar c (x :: u) = (x :: h) :: tl := by
  simp [splitOnChar, hx, hsp]

theorem splitOnChar_ne_nil (c : Char) : ∀ s, splitOnChar c s ≠ [] := by
  intro s
  cases s with
  | nil => simp [splitOnChar]
  | cons x xs =>
    by_cases hx : x = c
    · subst hx
      rw [splitOnChar_cons_self]
      simp
    · cases hsp : splitOnChar c xs with
      | nil => simp [splitOnChar, hx, hsp]
      | cons h tl =>
        rw [splitOnChar_cons_ne hx hsp]
        simp

theorem splitOnChar_shape (c : Char) (s : List Char) :
    ∃ h tl, splitOnChar c s = h :: tl := by
  cases hs : splitOnChar c s with
  | nil => exact absurd hs (splitOnChar_ne_nil c s)
  | cons h tl => exact ⟨h, tl, rfl⟩

theorem splitOnChar_eq_single {c : Char} :
    ∀ {t : List Char}, (∀ x ∈ t, x ≠ c) → splitOnChar c t = [t] := by
  intro t
  induction t with
  | nil => intro _; rfl
  | cons x xs ih =>
    intro h
    have hx : x ≠ c := h x (List.mem_cons_self _ _)
    have hsp : splitOnChar c xs = [xs] := ih (fun y hy => h y (List.mem_cons_of_mem _ hy))
    rw [splitOnChar_cons_ne hx hsp]

theorem getLastD_irrel {α : Type} {l : List α} (h : l ≠ []) (d1 d2 : α) :
    l.getLastD d1 = l.getLastD d2 := by
  cases l with
  | nil => exact absurd rfl h
  | cons b t => rw [List.getLastD_cons, List.getLastD_cons]

theorem getLastD_cons_of_ne_nil {α : Type} {l : List α} (h : l ≠ []) (a d : α) :
    (a :: l).getLastD d = l.getLastD d := by
  rw [List.getLastD_cons]
  exact getLastD_irrel h a d

theorem splitOnChar_append_length {c : Char} {t : List Char} (ht : ∀ x ∈ t, x ≠ c) :
    ∀ s, (splitOnChar c (s ++ t)).length = (splitOnChar c s).length := by
  intro s
  induction s with
  | nil => simp [splitOnChar_eq_single ht, splitOnChar]
  | cons x s' ih =>
    by_cases hx : x = c
    · subst hx
      rw [List.cons_append, splitOnChar_cons_self, splitOnChar_cons_self]
      simp [ih]
    · obtain ⟨h, tl, hsp⟩ := splitOnChar_shape c (s' ++ t)
      obtain ⟨h2, tl2, hsp2⟩ := splitOnChar_shape c s'
      rw [List.cons_append, splitOnChar_cons_ne hx hsp, splitOnChar_cons_ne hx hsp2]
      have := ih
      rw [hsp, hsp2] at this
      simpa using this

theorem splitOnChar_append_sep_length (c : Char) :
    ∀ s, (splitOnChar c (s ++ [c])).length = (splitOnChar c s).length + 1 := by
  intro s
  induction s with
  | nil => simp [splitOnChar]
  | cons x s' ih =>
    by_cases hx : x = c
    · subst hx
      rw [List.cons_append, splitOnChar_cons_self, splitOnChar_cons_self]
      simp [ih]
    · obtain ⟨h, tl, hsp⟩ := splitOnChar_shape c (s' ++ [c])
      obtain ⟨h2, tl2, hsp2⟩ := splitOnChar_shape c s'
      rw [List.cons_append, splitOnChar_cons_ne hx hsp, splitOnChar_cons_ne hx hsp2]
      have := ih
      rw [hsp, hsp2] at this
      simpa using this

theorem getLastD_splitOnChar_append {c : Char} {t : List Char} (ht : ∀ x ∈ t, x ≠ c) :
    ∀ s, (splitOnChar c (s ++ t)).getLastD [] = (splitOnChar c s).getLastD [] ++ t := by
  intro s
  induction s with
  | nil => simp [splitOnChar_eq_single ht, splitOnChar]
  | cons x s' ih =>
    by_cases hx : x = c
    · subst hx
      rw [List.cons_append, splitOnChar_cons_self, splitOnChar_cons_self,
        getLastD_cons_of_ne_nil (splitOnChar_ne_nil _ (s' ++ t)) _ _,
        getLastD_cons_of_ne_nil (splitOnChar_ne_nil _ s') _ _]
      exact ih
    · obtain ⟨h, tl, hsp⟩ := splitOnChar_shape c (s' ++ t)
      obtain ⟨h2, tl2, hsp2⟩ := splitOnChar_shape c s'
      rw [List.cons_append, splitOnChar_cons_ne hx hsp, splitOnChar_cons_ne hx hsp2]
      have hlen := splitOnChar_append_length ht s'
      rw [hsp, hsp2] at hlen
      simp only [List.length_cons] at hlen
      have ihh := ih
      rw [hsp, hsp2] at ihh
      cases tl with
      | nil =>
        have htl2 : tl2 = [] := by
          simp only [List.length_nil, List.length_cons] at hlen
          exact List.length_eq_zero.mp (by omega)
        subst htl2
        simp only [List.getLastD_cons, List.getLastD_nil] at ihh ⊢
        rw [ihh]
        simp
      | cons b tl' =>
        obtain ⟨b2, tl2', rfl⟩ : ∃ b2 tl2', tl2 = b2 :: tl2' := by
          cases tl2 with
          | nil =>
            exfalso
            simp only [List.length_nil, List.length_cons] at hlen
            omega
          | cons b2 tl2' => exact ⟨b2, tl2', rfl⟩
        rw [getLastD_cons_of_ne_nil (by simp : (b :: tl') ≠ []) _ _] at ihh ⊢
        rw [getLastD_cons_of_ne_nil (by simp : (b2 :: tl2') ≠ []) _ _] at ihh ⊢
        exact ihh

theorem getLastD_splitOnChar_concat_sep (c : Char) :
    ∀ s, (splitOnChar c (s ++ [c])).getLastD [] = [] := by
  intro s
  induction s with
  | nil => simp [splitOnChar]
  | cons x s' ih =>
    by_cases hx : x = c
    · subst hx
      rw [List.cons_append, splitOnChar_cons_self,
        getLastD_cons_of_ne_nil (splitOnChar_ne_nil _ _) _ _]
      exact ih
    · obtain ⟨h, tl, hsp⟩ := splitOnChar_shape c (s' ++ [c])
      have hlen := splitOnChar_append_sep_length c s'
      rw [hsp] at hlen
      have hpos : 1 ≤ (splitOnChar c s').length :=
        List.length_pos.mpr (splitOnChar_ne_nil c s')
      have htl : tl ≠ [] := by
        intro hh
        subst hh
        simp only [List.length_nil, List.length_cons] at hlen
        omega
      rw [List.cons_append, splitOnChar_cons_ne hx hsp, getLastD_cons_of_ne_nil htl _ _]
      rw [hsp, getLastD_cons_of_ne_nil htl _ _] at ih
      exact ih

theorem getLastD_splitOnChar_after_sep {c : Char} {t : List Char}
    (ht : ∀ x ∈ t, x ≠ c) (s : List Char) :
    (splitOnChar c (s ++ c :: t)).getLastD [] = t := by
  have h1 : s ++ c :: t = (s ++ [c]) ++ t := by simp
  rw [h1, getLastD_splitOnChar_append ht, getLastD_splitOnChar_concat_sep]
  simp

theorem pyNeg2_cons {l : List (List Char)} (h : 2 ≤ l.length) (a : List Char) :
    pyNeg2 (a :: l) = pyNeg2 l := by
  obtain ⟨u, w, hw⟩ : ∃ u w, l.reverse = u :: w := by
    cases hr : l.reverse with
    | nil =>
      rw [List.reverse_eq_nil_iff] at hr
      subst hr
      simp at h
    | cons u w => exact ⟨u, w, rfl⟩
  obtain ⟨v, w2, hw2⟩ : ∃ v w2, w = v :: w2 := by
    cases hww : w with
    | nil =>
      subst hww
      have := congrArg List.length hw
      simp at this
      omega
    | cons v w2 => exact ⟨v, w2, rfl⟩
  subst hw2
  unfold pyNeg2
  rw [List.reverse_cons, hw]
  simp

theorem pyNeg2_splitOnChar {c : Char} {ext : List Char} (hext : ∀ x ∈ ext, x ≠ c) :
    ∀ s, pyNeg2 (splitOnChar c (s ++ c :: ext)) = some ((splitOnChar c s).getLastD []) := by
  intro s
  induction s with
  | nil =>
    rw [List.nil_append, splitOnChar_cons_self, splitOnChar_eq_single hext]
    rfl
  | cons x s' ih =>
    have hlen2 : (splitOnChar c (s' ++ c :: ext)).length = (splitOnChar c s').length + 1 := by
      have h1 : s' ++ c :: ext = (s' ++ [c]) ++ ext := by simp
      rw [h1, splitOnChar_append_length hext, splitOnChar_append_sep_length]
    have hpos : 1 ≤ (splitOnChar c s').length :=
      List.length_pos.mpr (splitOnChar_ne_nil c s')
    by_cases hx : x = c
    · subst hx
      rw [List.cons_append, splitOnChar_cons_self]
      rw [pyNeg2_cons (by omega), ih, splitOnChar_cons_self,
        getLastD_cons_of_ne_nil (splitOnChar_ne_nil _ _) _ _]
    · obtain ⟨h, tl, hsp⟩ := splitOnChar_shape c (s' ++ c :: ext)
      obtain ⟨h2, tl2, hsp2⟩ := splitOnChar_shape c s'
      rw [hsp, hsp2] at hlen2
      simp only [List.length_cons] at hlen2
      rw [List.cons_append, splitOnChar_cons_ne hx hsp]
      cases tl with
      | nil => simp at hlen2
      | cons b tl' =>
        cases tl2 with
        | nil =>
          have htl' : tl' = [] := by
            simp only [List.length_nil, List.length_cons] at hlen2
            exact List.length_eq_zero.mp (by omega)
          subst htl'
          rw [hsp, hsp2] at ih
          simp only [List.getLastD_cons, List.getLastD_nil] at ih
          have hh : h = h2 := by simpa [pyNeg2] using ih
          rw [splitOnChar_cons_ne hx hsp2]
          simp [pyNeg2, hh]
        | cons b2 tl2' =>
          have hlentl : 2 ≤ (b :: tl').length := by
            simp only [List.length_cons] at hlen2 ⊢
            omega
          rw [pyNeg2_cons hlentl]
          rw [hsp, pyNeg2_cons hlentl, hsp2] at ih
          rw [getLastD_cons_of_ne_nil (by simp : (b2 :: tl2') ≠ []) _ _] at ih
          rw [splitOnChar_cons_ne hx hsp2,
            getLastD_cons_of_ne_nil (by simp : (b2 :: tl2') ≠ []) _ _]
          exact ih

theorem mem_of_mem_getLastD_splitOnChar {c x : Char} :
    ∀ {s : List Char}, x ∈ (splitOnChar c s).getLastD [] → x ∈ s := by
  intro s
  induction s with
  | nil => intro h; simp [splitOnChar] at h
  | cons x0 s' ih =>
    intro h
    by_cases hx : x0 = c
    · subst hx
      rw [splitOnChar_cons_self,
        getLastD_cons_of_ne_nil (splitOnChar_ne_nil _ _) _ _] at h
      exact List.mem_cons_of_mem _ (ih h)
    · obtain ⟨h1, tl, hsp⟩ := splitOnChar_shape c s'
      rw [splitOnChar_cons_ne hx hsp] at h
      cases tl with
      | nil =>
        simp only [List.getLastD_cons, List.getLastD_nil] at h
        rcases List.mem_cons.mp h with rfl | h'
        · exact List.mem_cons_self _ _
        · have : x ∈ (splitOnChar c s').getLastD [] := by
            rw [hsp]
            simp only [List.getLastD_cons, List.getLastD_nil]
            exact h'
          exact List.mem_cons_of_mem _ (ih this)
      | cons b tl' =>
        rw [getLastD_cons_of_ne_nil (by simp : (b :: tl') ≠ []) _ _] at h
        have : x ∈ (splitOnChar c s').getLastD [] := by
          rw [hsp, getLastD_cons_of_ne_nil (by simp : (b :: tl') ≠ []) _ _]
          exact h
        exact List.mem_cons_of_mem _ (ih this)

/- ### Lemmas: decimal digits and `int` parsing -/

theorem natDecimal_all_digits (n : Nat) : ∀ ch ∈ natDecimal n, ch.isDigit = true := by
  intro ch hch
  unfold natDecimal at hch
  by_cases h : n = 0
  · rw [if_pos h] at hch
    simp at hch
    subst hch
    decide
  · rw [if_neg h] at hch
    obtain ⟨d, hd, rfl⟩ := List.mem_map.mp hch
    have hdlt : d < 10 := Nat.digits_lt_base (by norm_num) (List.mem_reverse.mp hd)
    interval_cases d <;> decide

theorem digit_char_props {ch : Char} (h : ch.isDigit = true) :
    ch ≠ '-' ∧ ch ≠ '+' ∧ ch ≠ '.' ∧ ch ≠ '/' ∧ ch ≠ 'e' ∧ ch.isWhitespace = false := by
  refine ⟨?_, ?_, ?_, ?_, ?_, ?_⟩
  · intro heq; rw [heq] at h; exact absurd h (by decide)
  · intro heq; rw [heq] at h; exact absurd h (by decide)
  · intro heq; rw [heq] at h; exact absurd h (by decide)
  · intro heq; rw [heq] at h; exact absurd h (by decide)
  · intro heq; rw [heq] at h; exact absurd h (by decide)
  · have h1 : ch ≠ ' ' := by intro heq; rw [heq] at h; exact absurd h (by decide)
    have h2 : ch ≠ '\t' := by intro heq; rw [heq] at h; exact absurd h (by decide)
    have h3 : ch ≠ '\x0d' := by intro heq; rw [heq] at h; exact absurd h (by decide)
    have h4 : ch ≠ '\n' := by intro heq; rw [heq] at h; exact absurd h (by decide)
    simp [Char.isWhitespace, h1, h2, h3, h4]

theorem natDecimal_ne_nil (n : Nat) : natDecimal n ≠ [] := by
  unfold natDecimal
  by_cases h : n = 0
  · simp [h]
  · rw [if_neg h]
    intro hnil
    have h1 := List.map_eq_nil.mp hnil
    rw [List.reverse_eq_nil_iff] at h1
    exact (Nat.digits_ne_nil_iff_ne_zero.mpr h) h1

theorem foldl_digits_aux : ∀ (L : List Nat), (∀ d ∈ L, d < 10) → ∀ (a : Nat),
    ((L.reverse.map (fun d => Char.ofNat (48 + d))).foldl
      (fun acc c => 10 * acc + (c.toNat - 48)) a) =
      a * 10 ^ L.length + Nat.ofDigits 10 L := by
  intro L
  induction L with
  | nil =>
    intro _ a
    simp [Nat.ofDigits_nil]
  | cons d T ih =>
    intro hlt a
    have hd : d < 10 := hlt d (List.mem_cons_self _ _)
    have htn : (Char.ofNat (48 + d)).toNat = 48 + d := by interval_cases d <;> decide
    rw [List.reverse_cons, List.map_append, List.foldl_append,
      ih (fun x hx => hlt x (List.mem_cons_of_mem _ hx)) a]
    simp only [List.map_cons, List.map_nil, List.foldl_cons, List.foldl_nil, htn]
    rw [Nat.ofDigits_cons, List.length_cons]
    have hsub : 48 + d - 48 = d := by omega
    rw [hsub]
    ring

theorem parseDigits_natDecimal (n : Nat) : parseDigits (natDecimal n) = some n := by
  by_cases h : n = 0
  · subst h
    decide
  · have hall : (natDecimal n).all Char.isDigit = true :=
      List.all_eq_true.mpr (natDecimal_all_digits n)
    unfold parseDigits
    rw [if_pos ⟨natDecimal_ne_nil n, hall⟩]
    congr 1
    show (natDecimal n).foldl _ 0 = n
    unfold natDecimal
    rw [if_neg h,
      foldl_digits_aux (Nat.digits 10 n) (fun d hd => Nat.digits_lt_base (by norm_num) hd) 0]
    simp [Nat.ofDigits_digits]

theorem trimWs_eq_self {s : List Char} (hne : s ≠ [])
    (hdig : ∀ ch ∈ s, ch.isDigit = true) : trimWs s = s := by
  obtain ⟨a, t, rfl⟩ := List.exists_cons_of_ne_nil hne
  have hwa : Char.isWhitespace a = false :=
    (digit_char_props (hdig a (List.mem_cons_self _ _))).2.2.2.2.2
  have h1 : (a :: t).dropWhile Char.isWhitespace = a :: t := by
    rw [List.dropWhile_cons, hwa]
    simp
  unfold trimWs
  rw [h1]
  cases hrev : (a :: t).reverse with
  | nil =>
    exfalso
    rw [List.reverse_eq_nil_iff] at hrev
    exact List.cons_ne_nil a t hrev
  | cons b r =>
    have hb : b ∈ a :: t := by
      rw [← List.mem_reverse, hrev]
      exact List.mem_cons_self _ _
    have hwb : Char.isWhitespace b = false := (digit_char_props (hdig b hb)).2.2.2.2.2
    have h2 : List.dropWhile Char.isWhitespace (b :: r) = b :: r := by
      rw [List.dropWhile_cons, hwb]
      simp
    rw [h2, ← hrev, List.reverse_reverse]

theorem pyInt_natDecimal (n : Nat) : pyInt (natDecimal n) = some (n : Int) := by
  have hdig := natDecimal_all_digits n
  have htrim : trimWs (natDecimal n) = natDecimal n :=
    trimWs_eq_self (natDecimal_ne_nil n) hdig
  obtain ⟨a, t, hat⟩ := List.exists_cons_of_ne_nil (natDecimal_ne_nil n)
  have ha : a.isDigit = true := hdig a (by rw [hat]; exact List.mem_cons_self _ _)
  have hprops := digit_char_props ha
  unfold pyInt
  rw [htrim, hat]
  show (if a = '-' then (parseDigits t).map (fun m => -(m : Int))
      else if a = '+' then (parseDigits t).map (fun m => (m : Int))
      else (parseDigits (a :: t)).map (fun m => (m : Int))) = some (n : Int)
  rw [if_neg hprops.1, if_neg hprops.2.1, ← hat, parseDigits_natDecimal]
  rfl

/-- Replacing a pattern whose first character never occurs in the string is
the identity (any fuel). -/
theorem replaceAllFuel_not_mem {p : Char} {pt repl : List Char} :
    ∀ (fuel : Nat) (s : List Char), p ∉ s →
      replaceAllFuel (p :: pt) repl fuel s = s := by
  intro fuel
  induction fuel with
  | zero => intro s _; rfl
  | succ n ih =>
    intro s hp
    cases s with
    | nil => rfl
    | cons x xs =>
      have hpx : ¬((p :: pt).isPrefixOf (x :: xs) = true) := by
        intro hpre
        have hbeq : p = x := by
          unfold List.isPrefixOf at hpre
          simp only [Bool.and_eq_true, beq_iff_eq] at hpre
          exact hpre.1
        exact hp (by rw [hbeq]; exact List.mem_cons_self _ _)
      have hcond : ¬((p :: pt) ≠ [] ∧ (p :: pt).isPrefixOf (x :: xs)) := by
        intro hc
        exact hpx hc.2
      show replaceAllFuel (p :: pt) repl (n + 1) (x :: xs) = x :: xs
      rw [replaceAllFuel, if_neg hcond, ih xs (fun h => hp (List.mem_cons_of_mem _ h))]

theorem replaceAll_not_mem {p : Char} {pt repl s : List Char} (hp : p ∉ s) :
    replaceAll (p :: pt) repl s = s :=
  replaceAllFuel_not_mem _ s hp

/-- C8: epoch parsing round-trip.  For every filename
`{prefix}-epoch-{N}.{ext}` — `prefix` an arbitrary dash-free string (it may
contain dots and path separators), `ext` a dot-free extension and `N` a
natural number in decimal — `checkpoint_epoch` returns exactly `N`. -/
theorem claim_C8_theorem (pre ext : List Char) (N : Nat)
    (hpre : '-' ∉ pre) (hext1 : '.' ∉ ext) (hext2 : '/' ∉ ext) :
    checkpoint_epoch (pre ++ "-epoch-".data ++ natDecimal N ++ '.' :: ext) =
      some (N : Int) := by
  have hlit : ("-epoch-".data : List Char) = ['-', 'e', 'p', 'o', 'c', 'h', '-'] := by
    decide
  have hdigN : ∀ ch ∈ natDecimal N, ch.isDigit = true := natDecimal_all_digits N
  have hNdash : ∀ x ∈ natDecimal N, x ≠ '-' :=
    fun x hx => (digit_char_props (hdigN x hx)).1
  have hNdot : ∀ x ∈ natDecimal N, x ≠ '.' :=
    fun x hx => (digit_char_props (hdigN x hx)).2.2.1
  have hNslash : ∀ x ∈ natDecimal N, x ≠ '/' :=
    fun x hx => (digit_char_props (hdigN x hx)).2.2.2.1
  have hNe : 'e' ∉ natDecimal N := by
    intro hx
    exact (digit_char_props (hdigN 'e' hx)).2.2.2.2.1 rfl
  set Ps := (splitOnChar '/' pre).getLastD [] with hPsdef
  set Q := (splitOnChar '.' Ps).getLastD [] with hQdef
  have hPspre : ∀ x ∈ Ps, x ∈ pre := fun x hx => mem_of_mem_getLastD_splitOnChar hx
  have hQdash : '-' ∉ Q := by
    intro hx
    exact hpre (hPspre _ (mem_of_mem_getLastD_splitOnChar hx))
  have hslash : ∀ x ∈ ("-epoch-".data ++ (natDecimal N ++ '.' :: ext)), x ≠ '/' := by
    intro x hx
    rw [hlit] at hx
    rcases List.mem_append.mp hx with hx' | hx'
    · simp at hx'
      rcases hx' with rfl | rfl | rfl | rfl | rfl | rfl | rfl <;> decide
    · rcases List.mem_append.mp hx' with hx'' | hx''
      · exact hNslash x hx''
      · rcases List.mem_cons.mp hx'' with rfl | hx3
        · decide
        · exact fun heq => hext2 (heq ▸ hx3)
  have hextdot : ∀ x ∈ ext, x ≠ '.' := fun x hx heq => hext1 (heq ▸ hx)
  have hdot2 : ∀ x ∈ ("-epoch-".data ++ natDecimal N), x ≠ '.' := by
    intro x hx
    rw [hlit] at hx
    rcases List.mem_append.mp hx with hx' | hx'
    · simp at hx'
      rcases hx' with rfl | rfl | rfl | rfl | rfl | rfl | rfl <;> decide
    · exact hNdot x hx'
  have hA : (splitOnChar '/' (pre ++ ("-epoch-".data ++ (natDecimal N ++ '.' :: ext)))).getLastD []
      = Ps ++ ("-epoch-".data ++ (natDecimal N ++ '.' :: ext)) :=
    getLastD_splitOnChar_append hslash pre
  have hshape : Ps ++ ("-epoch-".data ++ (natDecimal N ++ '.' :: ext)) =
      (Ps ++ ("-epoch-".data ++ natDecimal N)) ++ '.' :: ext := by
    simp [List.append_assoc]
  have hB : pyNeg2 (splitOnChar '.' ((Ps ++ ("-epoch-".data ++ natDecimal N)) ++ '.' :: ext))
      = some ((splitOnChar '.' (Ps ++ ("-epoch-".data ++ natDecimal N))).getLastD []) :=
    pyNeg2_splitOnChar hextdot _
  have hC : (splitOnChar '.' (Ps ++ ("-epoch-".data ++ natDecimal N))).getLastD []
      = Q ++ ("-epoch-".data ++ natDecimal N) :=
    getLastD_splitOnChar_append hdot2 Ps
  have hshape2 : Q ++ ("-epoch-".data ++ natDecimal N) =
      (Q ++ ['-', 'e', 'p', 'o', 'c', 'h']) ++ '-' :: natDecimal N := by
    rw [hlit]
    simp
  have hD : (splitOnChar '-' ((Q ++ ['-', 'e', 'p', 'o', 'c', 'h']) ++ '-' :: natDecimal N)).getLastD []
      = natDecimal N :=
    getLastD_splitOnChar_after_sep hNdash _
  have hE : replaceAll "epoch".data [] (natDecimal N) = natDecimal N := by
    rw [show ("epoch".data : List Char) = 'e' :: ['p', 'o', 'c', 'h'] by decide]
    exact replaceAll_not_mem hNe
  have hassoc : pre ++ "-epoch-".data ++ natDecimal N ++ '.' :: ext =
      pre ++ ("-epoch-".data ++ (natDecimal N ++ '.' :: ext)) := by
    simp [List.append_assoc]
  simp only [checkpoint_epoch]
  rw [hassoc, hA, hshape, hB]
  show pyInt (replaceAll "epoch".data []
    ((splitOnChar '-' ((splitOnChar '.' (Ps ++ ("-epoch-".data ++ natDecimal N))).getLastD [])).getLastD []))
    = some (N : Int)
  rw [hC, hshape2, hD, hE]
  exact pyInt_natDecimal N

/-- C8 witness: `model-epoch-12.pt` parses to 12. -/
theorem claim_C8_witness :
    checkpoint_epoch ("model".data ++ "-epoch-".data ++ natDecimal 12 ++ '.' :: "pt".data) =
      some (12 : Int) :=
  claim_C8_theorem "model".data "pt".data 12 (by decide) (by decide) (by decide)
